import Mathlib

/-!
Verification of the manipulation-space search engine of the
`elsa-cybersecurity` black-box problem-space attack repository.

The Lean definitions below are a shallow embedding of the Python sources:

* `src/black_box_attack/manipulations/manipulation_space.py`
  (`Feature`, `Manipulations`, `ManipulationSpace`),
* `src/black_box_attack/manipulations/manipulator.py`
  (`Manipulator.get_error_free_manipulations`, `Manipulator.model_probing`,
  `_apply_manipulations`),
* `src/black_box_attack/evasion/bb_ps_attack.py`
  (`BBPSAttack.run`, `BBPSAttack._run_attack`, `BBPSAttack._init_attack`,
  `BBPSAttack._get_random_manipulation_vector`).

Modelling conventions:

* A feature string `"category::identifier"` is represented as a pair
  `Feat` of its category (the part before the first `"::"`) and its
  identifier (the rest).  `feat.startswith("api_calls::")` on the string
  corresponds to category equality, and `feat.endswith("()V")` corresponds
  to a suffix test on the identifier (the separator `"::"` contains no
  character of the suffixes, so the two views agree on well-formed
  feature strings).
* Python list indexing (which accepts negative indices by wrapping around
  the end of the list and raises `IndexError` otherwise) is modelled by
  `py_get`, returning `Option`; a raised exception is `none`.
* `numpy` integer arrays are `List Int`; Boolean-mask selection preserves
  order and is modelled with `List.filter`.
* Python `dict`s (used for grouping by category and for the `{**a, **b}`
  merge in `model_probing`) are association lists in key-insertion order.
* The external builder/classifier pipeline is opaque: building and
  scoring an APK with a given manipulation set is an arbitrary function
  parameter (`oracle : Manipulations → Bool` for build success,
  `score_of : Manipulations → ℚ` for classifier scores).
* Classifier scores (Python floats compared with `!=` in the source) are
  modelled as rationals with decidable equality.
-/

/-- `Feature` from `manipulation_space.py`: capability flags of a feature
category. -/
structure Feature where
  inject : Bool
  obfuscate : Bool
deriving DecidableEq, Repr

/-- A single feature / manipulation candidate, i.e. the source's string
`"category::identifier"` split at the first `"::"`. -/
structure Feat where
  category : String
  ident : String
deriving DecidableEq, Repr

instance : Inhabited Feat := ⟨⟨"", ""⟩⟩

/-- The fixed class-level table `ManipulationSpace.features`.  A lookup of
a category absent from the table raises `KeyError` in Python; the model
returns `none` and the theorems assume the inputs' categories are present
in the table. -/
def features_table (c : String) : Option Feature :=
  if c = "activities" then some ⟨false, true⟩
  else if c = "services" then some ⟨false, true⟩
  else if c = "providers" then some ⟨false, true⟩
  else if c = "receivers" then some ⟨false, true⟩
  else if c = "api_calls" then some ⟨true, true⟩
  else if c = "suspicious_calls" then some ⟨false, true⟩
  else if c = "urls" then some ⟨true, true⟩
  else none

/-- `features[cat].inject`, with `false` in place of a `KeyError`. -/
def can_inject (c : String) : Bool :=
  match features_table c with
  | some ft => ft.inject
  | none => false

/-- `features[cat].obfuscate`, with `false` in place of a `KeyError`. -/
def can_obfuscate (c : String) : Bool :=
  match features_table c with
  | some ft => ft.obfuscate
  | none => false

/-- `feat.startswith(("api_calls::", "suspicious_calls::"))` on the split
representation. -/
def is_api_susp (c : String) : Bool :=
  c = "api_calls" || c = "suspicious_calls"

/-- Python `str.endswith` restricted to a single suffix, on the character
list of the string. -/
def str_ends_with (s suffix : String) : Bool :=
  suffix.data.isSuffixOf s.data

/-- `feat.endswith(("()V", "()Z", "()I"))` of `get_valid_injections`. -/
def ends_ok (ident : String) : Bool :=
  str_ends_with ident "()V" || str_ends_with ident "()Z" || str_ends_with ident "()I"

/-- `Manipulations` from `manipulation_space.py`: the two ordered candidate
sequences. -/
structure Manipulations where
  inject : List Feat
  obfuscate : List Feat
deriving DecidableEq, Repr

namespace Manipulations

/-- `Manipulations.__len__`. -/
def len (m : Manipulations) : Nat :=
  m.inject.length + m.obfuscate.length

/-- `Manipulations.get_idxs`: `[0, …, len(inject)-1]` followed by the
obfuscation indices shifted by `len(inject)`. -/
def get_idxs (m : Manipulations) : List Nat :=
  (List.range m.inject.length)
    ++ (List.range m.obfuscate.length).map (fun i => i + m.inject.length)

end Manipulations

/-- Python list indexing `l[i]`: non-negative indices address from the
front, negative indices wrap around the end, and anything else raises
`IndexError` (modelled as `none`). -/
def py_get (l : List α) (i : Int) : Option α :=
  if 0 ≤ i then l[i.toNat]?
  else if 0 ≤ i + l.length then l[(i + l.length).toNat]? else none

/-- Sequencing of a list of fallible lookups: the Python comprehension
`[l[i] for i in v]` raises as soon as one lookup raises. -/
def map_option (f : α → Option β) : List α → Option (List β)
  | [] => some []
  | a :: as =>
    match f a, map_option f as with
    | some b, some bs => some (b :: bs)
    | _, _ => none

namespace Manipulations

/-- `Manipulations.get_manipulations_from_vector`: split the vector with
the Boolean masks `v < len(inject)` / `v >= len(inject)` (order
preserving), then index the two candidate lists; any out-of-range index
raises (`none`). -/
def get_manipulations_from_vector (m : Manipulations) (v : List Int) :
    Option Manipulations :=
  match map_option (py_get m.inject)
          (v.filter (fun i => decide (i < (m.inject.length : Int)))),
        map_option (py_get m.obfuscate)
          ((v.filter (fun i => decide ((m.inject.length : Int) ≤ i))).map
            (fun i => i - (m.inject.length : Int))) with
  | some inj, some obf => some ⟨inj, obf⟩
  | _, _ => none

end Manipulations

/-- `ManipulationSpace`: the candidate sets of one artifact plus the
mutable `_disabled_categories` set. -/
structure MSpace where
  inject : List Feat
  obfuscate : List Feat
  disabled_categories : Finset String
deriving DecidableEq

namespace MSpace

/-- `get_valid_injections` (static method): keep the features whose
category has the `inject` capability, excluding API/suspicious calls
whose identifier does not end in `()V`, `()Z` or `()I`. -/
def get_valid_injections (goodware_features : List Feat) : List Feat :=
  goodware_features.filter
    (fun f => can_inject f.category && !(is_api_susp f.category && !ends_ok f.ident))

/-- `get_valid_obfuscations` (static method): keep the features whose
category has the `obfuscate` capability. -/
def get_valid_obfuscations (malware_features : List Feat) : List Feat :=
  malware_features.filter (fun f => can_obfuscate f.category)

/-- `ManipulationSpace.__init__`: `inject` is the valid injections among
the pool candidates not present in the artifact's features; `obfuscate`
is the valid obfuscations among the artifact's features not selected for
injection; the disabled set starts empty. -/
def init (valid_injections malware_features : List Feat) : MSpace :=
  let inj := get_valid_injections
    (valid_injections.filter (fun v => decide (v ∉ malware_features)))
  let obf := get_valid_obfuscations
    (malware_features.filter (fun f => decide (f ∉ inj)))
  ⟨inj, obf, ∅⟩

/-- `ManipulationSpace.__len__` (inherited from `Manipulations`). -/
def space_len (sp : MSpace) : Nat :=
  sp.inject.length + sp.obfuscate.length

/-- `get_all_manipulations`. -/
def get_all_manipulations (sp : MSpace) : Manipulations :=
  ⟨sp.inject, sp.obfuscate⟩

/-- `get_all_injections`. -/
def get_all_injections (sp : MSpace) : Manipulations :=
  ⟨sp.inject, []⟩

/-- `get_all_obfuscations`. -/
def get_all_obfuscations (sp : MSpace) : Manipulations :=
  ⟨[], sp.obfuscate⟩

/-- `get_vector_from_manipulations`: note that the source enumerates the
argument's two sequences and uses only their positions (`for i, _ in
enumerate(...)`), never the candidates themselves. -/
def get_vector_from_manipulations (sp : MSpace) (m : Manipulations) : List Int :=
  (List.range m.inject.length).map Int.ofNat
    ++ (List.range m.obfuscate.length).map (fun i => Int.ofNat i + sp.inject.length)

/-- `set_error_free_manipulations`. -/
def set_error_free_manipulations (sp : MSpace) (m : Manipulations) : MSpace :=
  ⟨m.inject, m.obfuscate, sp.disabled_categories⟩

/-- `disable_category`: add the category to `_disabled_categories`. -/
def disable_category (sp : MSpace) (category : String) : MSpace :=
  ⟨sp.inject, sp.obfuscate, insert category sp.disabled_categories⟩

end MSpace

/-- One step of the grouping loops of `get_injections_by_categories` /
`get_obfuscations_by_categories`: append the feature to its category's
bucket, creating the bucket at the end on first sight of the category
(Python dict insertion order). -/
def add_to_groups (gs : List (String × List Feat)) (f : Feat) :
    List (String × List Feat) :=
  if gs.any (fun g => g.1 = f.category) then
    gs.map (fun g => if g.1 = f.category then (g.1, g.2 ++ [f]) else g)
  else gs ++ [(f.category, [f])]

/-- Group a candidate list by category, in first-occurrence key order. -/
def group_by_categories (fs : List Feat) : List (String × List Feat) :=
  fs.foldl add_to_groups []

namespace MSpace

/-- `get_injections_by_categories`. -/
def get_injections_by_categories (sp : MSpace) : List (String × List Feat) :=
  group_by_categories sp.inject

/-- `get_obfuscations_by_categories`. -/
def get_obfuscations_by_categories (sp : MSpace) : List (String × List Feat) :=
  group_by_categories sp.obfuscate

end MSpace

/-- Python dict merge `{**a, **b}`: the keys of `a` in order (with the
value from `b` when `b` also has the key), then the keys only in `b`. -/
def dict_update (a b : List (String × List Feat)) : List (String × List Feat) :=
  a.map (fun g =>
    match b.find? (fun h => h.1 = g.1) with
    | some h => (g.1, h.2)
    | none => g)
  ++ b.filter (fun h => !a.any (fun g => g.1 = h.1))

/-- Python extended slicing `l[start::step]` for `step ≥ 1`: the elements
at positions `start, start+step, start+2*step, …`, in order.  (The source
only slices with `step = min(n_jobs, len(...)) ≥ 1`.) -/
def slice_step (l : List α) (start step : Nat) : List α :=
  ((List.range l.length).filter
      (fun j => decide (start ≤ j) && decide ((j - start) % step = 0))).filterMap
    (fun j => l[j]?)

/-- Concatenate a list of partial results, as the accumulating
`error_free_manipulations.inject.extend(...)` / `.obfuscate.extend(...)`
loop of `get_error_free_manipulations` does over a depth-first traversal. -/
def join_manips (ms : List Manipulations) : Manipulations :=
  ⟨(ms.map Manipulations.inject).flatten, (ms.map Manipulations.obfuscate).flatten⟩

/-- The stride-`k` sub-vectors `idxs[i::n] for i in range(n)` with
`n = min(n_jobs, len(manipulation))`, from the recursion step of
`get_error_free_manipulations`. -/
def stride_subvectors (m : Manipulations) (n_jobs : Nat) : List (List Nat) :=
  (List.range (min n_jobs m.len)).map
    (fun i => slice_step m.get_idxs i (min n_jobs m.len))

/-- The sub-`Manipulations` recursed on: `manipulation.
get_manipulations_from_vector(idxs[i::n])`.  The source guarantees the
sliced indices are in range, so the `IndexError` branch (`none`) cannot
occur; it is defaulted to the empty set. -/
def stride_submanips (m : Manipulations) (n_jobs : Nat) : List Manipulations :=
  (stride_subvectors m n_jobs).map
    (fun v =>
      (m.get_manipulations_from_vector (v.map Int.ofNat)).getD ⟨[], []⟩)

/-- `_recurse_apply_manipulations` of `get_error_free_manipulations`,
with the external build pipeline abstracted as `oracle` (the result of
`_apply_manipulations`: `true` iff `_manipulate` plus
`build_obfuscated_apk` succeed).  If the build of the whole set succeeds
the set is accepted; if it fails and the set has more than one element,
the recursion descends into the stride-`k` sub-vectors; a failing
singleton is discarded.  The Python recursion has no termination fuel
(with `n_jobs = 1` it recurses on the same set forever); `fuel` makes the
model total, the out-of-fuel branch accepting nothing. -/
def recurse_apply (oracle : Manipulations → Bool) (n_jobs : Nat) :
    Nat → Manipulations → Manipulations
  | 0, _ => ⟨[], []⟩
  | fuel + 1, m =>
    if oracle m then m
    else if 1 < m.len then
      join_manips ((stride_submanips m n_jobs).map (recurse_apply oracle n_jobs fuel))
    else ⟨[], []⟩

/-- `bb_ps_attack.py`, lines 210–212 of `_run_attack`:

    budget = 0
    while budget < self._query_budget:
        pass

`search_loop_budget n` is the value of `budget` after `n` iterations of
the loop body (`pass` changes nothing). -/
def search_loop_budget : Nat → Nat
  | 0 => 0
  | n + 1 => search_loop_budget n

/-- `_get_random_manipulation_vector`: the index pool
`np.arange(len(manipulation_space))` from which `np.random.choice` draws
`min(len(space), n_features)` distinct indices.  The pool is the whole
index range of the space; `_disabled_categories` is not consulted. -/
def random_vector_pool (sp : MSpace) : List Nat :=
  List.range sp.space_len

/-- The number of indices drawn by `_get_random_manipulation_vector`. -/
def random_vector_size (sp : MSpace) (n_features : Nat) : Nat :=
  min sp.space_len n_features

/-- The probe set built for one entry `(feat_category, feats)` of the
merged dict in `Manipulator.model_probing`: a pure-injection set when the
category is a key of `injections_by_category`, otherwise a
pure-obfuscation set. -/
def probe_manips_of (injd : List (String × List Feat)) (g : String × List Feat) :
    Manipulations :=
  if injd.any (fun h => h.1 = g.1) then ⟨g.2, []⟩ else ⟨[], g.2⟩

/-- The categories on which `Manipulator.model_probing` calls
`manipulation_space.disable_category`: the loop probes each entry of
`{**injections_by_category, **obfuscations_by_category}` once, scores the
built APK with the classifier, and disables the category when
`init_score != scores.item()` is false, i.e. exactly when the score
equals the baseline.  The build-and-classify pipeline is abstracted as
`score_of`. -/
def model_probing_calls (score_of : Manipulations → ℚ) (init_score : ℚ)
    (sp : MSpace) : List String :=
  let injd := sp.get_injections_by_categories
  let obfd := sp.get_obfuscations_by_categories
  ((dict_update injd obfd).filter
      (fun g => decide (score_of (probe_manips_of injd g) = init_score))).map
    (fun g => g.1)

/-- `Manipulator.model_probing` as a state transformer of the
manipulation space: the disabled set grows by the probed-inert
categories, nothing else changes. -/
def model_probing (score_of : Manipulations → ℚ) (init_score : ℚ)
    (sp : MSpace) : MSpace :=
  ⟨sp.inject, sp.obfuscate,
    (model_probing_calls score_of init_score sp).foldl
      (fun s c => insert c s) sp.disabled_categories⟩

/-- The probe set that `model_probing` scores for a given category: the
merged dict's bucket of that category, placed in the inject or obfuscate
slot according to `if feat_category in injections_by_category`. -/
def probe_manips (sp : MSpace) (cat : String) : Manipulations :=
  let injd := sp.get_injections_by_categories
  match (dict_update injd sp.get_obfuscations_by_categories).find?
      (fun g => g.1 = cat) with
  | some g => probe_manips_of injd g
  | none => ⟨[], []⟩

/-- The categories present in a manipulation space. -/
def space_categories (sp : MSpace) : List String :=
  (sp.inject ++ sp.obfuscate).map Feat.category

/-- The errors a single-sample attack can raise out of
`BBPSAttack._run_attack`. -/
inductive RunErr where
  /-- `_init_attack` line 255: `raise Exception("No manipulation can be
  applied.")` when the (probed, error-free) manipulation space is empty. -/
  | emptySpace : RunErr
  /-- `_run_attack` line 190 calls `self._init_optimizer()`, a method that
  does not exist on `BBPSAttack`: Python raises `AttributeError`. -/
  | attributeError : RunErr
deriving DecidableEq, Repr

/-- `BBPSAttack._init_attack`, with feature extraction, the error-free
filter and probing folded into the opaque `space_of` (the manipulation
space the sample ends up with): raises when the space has no candidates
(its `__bool__` is `len > 0`). -/
def init_attack (space_of : String → Manipulations) (s : String) :
    Except RunErr Manipulations :=
  if (space_of s).len = 0 then .error .emptySpace else .ok (space_of s)

/-- `BBPSAttack._run_attack` on one sample, with the classifier
abstracted as `classify : sample → (label, score)`.  A sample whose label
is `0` (benign) is returned unattacked; otherwise `_init_attack` runs
and, when it succeeds, the call `self._init_optimizer()` raises
`AttributeError` (the method is not defined anywhere in the class), so
the attack never reaches its search loop. -/
def run_attack (classify : String → Nat × ℚ) (space_of : String → Manipulations)
    (s : String) : Except RunErr (Nat × ℚ × String) :=
  let c := classify s
  if c.1 = 0 then .ok (c.1, c.2, s)
  else
    match init_attack space_of s with
    | .error e => .error e
    | .ok _ => .error .attributeError

/-- `BBPSAttack.run` over the malware sample list: `results.append(
self._run_attack(sample))` in a plain `for` loop with no exception
handling, so the first raising sample aborts the whole run and every
sample after it (and the raising one) gets no result record. -/
def run_bbps (classify : String → Nat × ℚ) (space_of : String → Manipulations) :
    List String → List (Nat × ℚ × String) → Except RunErr (List (Nat × ℚ × String))
  | [], acc => .ok acc.reverse
  | s :: rest, acc =>
    match run_attack classify space_of s with
    | .ok r => run_bbps classify space_of rest (r :: acc)
    | .error e => .error e

/-- The canonical "prefix" index vector of a space: the first `kI`
injection indices followed by the first `kO` obfuscation indices.
`get_vector_from_manipulations` always returns a vector of this shape. -/
def prefix_vector (sp : MSpace) (kI kO : Nat) : List Int :=
  (List.range kI).map Int.ofNat
    ++ (List.range kO).map (fun i => Int.ofNat i + sp.inject.length)

/-- The candidate addressed by an index of the set's index space:
indices `[0, len(inject))` address `inject`, the rest address
`obfuscate`, in order. -/
def addr_of (m : Manipulations) (i : Int) : Feat :=
  (m.inject ++ m.obfuscate).getD i.toNat default

/-- Claim C1: refuted by the code.  The search loop of
`BBPSAttack._run_attack` is `budget = 0; while budget < self._query_budget:
pass`: after any number `n` of iterations the budget is still `0`, so with
`query_budget = 20` the loop guard `budget < 20` keeps holding and the loop
never terminates — the engine never reaches `EVADED`, `BUDGET_EXHAUSTED`
or `STAGNATED` (and, before the loop is even reached, line 190 calls the
undefined method `self._init_optimizer`). -/
theorem c1_search_loop_never_terminates :
    ∀ n : Nat, search_loop_budget n = 0 ∧ search_loop_budget n < 20 := by
  intro n
  induction n with
  | zero => exact ⟨rfl, by decide⟩
  | succ n ih => exact ⟨ih.1, ih.2⟩

/-- Claim C3: refuted by the code.  After `disable_category("urls")` on a
space whose only candidate is the injection `urls::u1`, the grouping
`get_injections_by_categories` still returns the `urls` bucket with that
candidate, and the index pool of `_get_random_manipulation_vector`
(`np.arange(len(space))`) still contains its index `0`: the
`_disabled_categories` set is written but never read by any sampling or
grouping operation. -/
theorem c3_disable_category_not_consulted :
    ("urls" ∈ (MSpace.disable_category (MSpace.init [⟨"urls", "u1"⟩] [])
        "urls").disabled_categories)
    ∧ (MSpace.disable_category (MSpace.init [⟨"urls", "u1"⟩] [])
        "urls").get_injections_by_categories = [("urls", [⟨"urls", "u1"⟩])]
    ∧ random_vector_pool
        (MSpace.disable_category (MSpace.init [⟨"urls", "u1"⟩] []) "urls")
      = [0] := by
  refine ⟨?_, by decide, by decide⟩
  decide

/-- Claim C6: refuted by the code.  `BBPSAttack.run` appends
`self._run_attack(sample)` with no exception handling; on a detected
sample whose manipulation space is empty, `_init_attack` raises
(`"No manipulation can be applied."`), the run aborts, and neither the
failing artifact nor any later artifact gets a result record: with two
malware samples the result is the bare exception and zero records. -/
theorem c6_run_aborts_on_empty_space :
    run_bbps (fun _ => (1, 9 / 10)) (fun _ => ⟨[], []⟩) ["mal_1", "mal_2"] []
      = Except.error RunErr.emptySpace := by
  rfl

/-- Counterexample to claim C2: on a space with injections `[a, b]`, the
vector `[1]` selects the sub-set `⟨[b], []⟩`, but
`get_vector_from_manipulations` maps that sub-set to `[0]` — the function
only enumerates positions of its argument, so the round trip does not
return the original vector. -/
theorem c2_counterexample :
    (MSpace.get_all_manipulations
        ⟨[⟨"urls", "a"⟩, ⟨"urls", "b"⟩], [], ∅⟩).get_manipulations_from_vector [1]
      = some ⟨[⟨"urls", "b"⟩], []⟩
    ∧ MSpace.get_vector_from_manipulations ⟨[⟨"urls", "a"⟩, ⟨"urls", "b"⟩], [], ∅⟩
        ⟨[⟨"urls", "b"⟩], []⟩ = [0]
    ∧ ([0] : List Int) ≠ [1] := by
  refine ⟨by decide, by decide, by decide⟩

theorem map_option_eq_some (f : α → Option β) (d : β) (xs : List α)
    (h : ∀ a ∈ xs, (f a).isSome = true) :
    map_option f xs = some (xs.map (fun a => (f a).getD d)) := by
  induction xs with
  | nil => rfl
  | cons a as ih =>
    have ha : (f a).isSome = true := h a (by simp)
    obtain ⟨b, hb⟩ := Option.isSome_iff_exists.mp ha
    have has : map_option f as = some (as.map (fun a => (f a).getD d)) :=
      ih (fun x hx => h x (by simp [hx]))
    simp [map_option, hb, has]

theorem map_option_eq_none (f : α → Option β) (xs : List α)
    (h : ∃ a ∈ xs, f a = none) :
    map_option f xs = none := by
  induction xs with
  | nil => simp at h
  | cons a as ih =>
    rcases h with ⟨x, hx, hfx⟩
    rcases List.mem_cons.mp hx with rfl | hx'
    · simp [map_option, hfx]
    · have := ih ⟨x, hx', hfx⟩
      simp only [map_option, this]
      cases f a <;> rfl

theorem py_get_eq_some (l : List α) (i : Int) (h0 : 0 ≤ i)
    (h1 : i < (l.length : Int)) (d : α) :
    py_get l i = some (l.getD i.toNat d) := by
  have hlt : i.toNat < l.length := by omega
  unfold py_get
  rw [if_pos h0, List.getElem?_eq_getElem hlt, List.getD_eq_getElem l d hlt]

theorem py_get_eq_none_of_ge (l : List α) (i : Int)
    (h : (l.length : Int) ≤ i) :
    py_get l i = none := by
  have h0 : 0 ≤ i := by omega
  have hge : l.length ≤ i.toNat := by omega
  unfold py_get
  rw [if_pos h0, List.getElem?_eq_none hge]

theorem manip_filter_inject_add_filter_obfuscate (nI : Nat) (v : List Int) :
    (v.filter (fun i => decide (i < (nI : Int)))
        ++ v.filter (fun i => decide ((nI : Int) ≤ i))).Perm v := by
  have hcongr :
      v.filter (fun i => decide ((nI : Int) ≤ i))
        = v.filter (fun i => !decide (i < (nI : Int))) :=
    List.filter_congr (by
      intro x _
      rw [show (decide ((nI : Int) ≤ x)) = decide (¬(x < (nI : Int))) from
          decide_eq_decide.mpr (by omega),
        decide_not])
  rw [hcongr]
  exact List.filter_append_perm _ v

theorem get_manipulations_from_vector_eq_some (m : Manipulations) (v : List Int)
    (h : ∀ i ∈ v, 0 ≤ i ∧ i < (m.len : Int)) :
    m.get_manipulations_from_vector v
      = some
        ⟨(v.filter (fun i => decide (i < (m.inject.length : Int)))).map
            (fun i => m.inject.getD i.toNat default),
          ((v.filter (fun i => decide ((m.inject.length : Int) ≤ i))).map
              (fun i => i - (m.inject.length : Int))).map
            (fun i => m.obfuscate.getD i.toNat default)⟩ := by
  have hinj :
      map_option (py_get m.inject)
          (v.filter (fun i => decide (i < (m.inject.length : Int))))
        = some ((v.filter (fun i => decide (i < (m.inject.length : Int)))).map
            (fun i => (py_get m.inject i).getD default)) := by
    refine map_option_eq_some _ default _ ?_
    intro i hi
    have hmem := List.mem_filter.mp hi
    have h0 : 0 ≤ i := (h i hmem.1).1
    have h1 : i < (m.inject.length : Int) := by
      have := hmem.2; simpa using this
    rw [py_get_eq_some m.inject i h0 h1 default]
    rfl
  have hobf :
      map_option (py_get m.obfuscate)
          ((v.filter (fun i => decide ((m.inject.length : Int) ≤ i))).map
            (fun i => i - (m.inject.length : Int)))
        = some (((v.filter (fun i => decide ((m.inject.length : Int) ≤ i))).map
              (fun i => i - (m.inject.length : Int))).map
            (fun j => (py_get m.obfuscate j).getD default)) := by
    refine map_option_eq_some _ default _ ?_
    intro j hj
    obtain ⟨i, hi, rfl⟩ := List.mem_map.mp hj
    have hmem := List.mem_filter.mp hi
    have hge : (m.inject.length : Int) ≤ i := by
      have := hmem.2; simpa using this
    have hlt : i < (m.len : Int) := (h i hmem.1).2
    have h0 : 0 ≤ i - (m.inject.length : Int) := by omega
    have h1 : i - (m.inject.length : Int) < (m.obfuscate.length : Int) := by
      have : (m.len : Int) = (m.inject.length : Int) + m.obfuscate.length := by
        simp [Manipulations.len]
      omega
    rw [py_get_eq_some m.obfuscate _ h0 h1 default]
    rfl
  have hgetD : ∀ (l : List Feat) (i : Int), 0 ≤ i → i < (l.length : Int) →
      (py_get l i).getD default = l.getD i.toNat default := by
    intro l i h0 h1
    rw [py_get_eq_some l i h0 h1 default]
    rfl
  simp only [Manipulations.get_manipulations_from_vector, hinj, hobf]
  congr 2
  · refine List.map_congr_left ?_
    intro i hi
    have hmem := List.mem_filter.mp hi
    have h1 : i < (m.inject.length : Int) := by have := hmem.2; simpa using this
    exact hgetD m.inject i (h i hmem.1).1 h1
  · refine List.map_congr_left ?_
    intro j hj
    obtain ⟨i, hi, rfl⟩ := List.mem_map.mp hj
    have hmem := List.mem_filter.mp hi
    have hge : (m.inject.length : Int) ≤ i := by have := hmem.2; simpa using this
    have hlt : i < (m.len : Int) := (h i hmem.1).2
    have hlen : (m.len : Int) = (m.inject.length : Int) + m.obfuscate.length := by
      simp [Manipulations.len]
    exact hgetD m.obfuscate _ (by omega) (by omega)

theorem get_manipulations_from_vector_eq_none (m : Manipulations) (v : List Int)
    (h : ∃ i ∈ v, (m.len : Int) ≤ i) :
    m.get_manipulations_from_vector v = none := by
  obtain ⟨i, hi, hge⟩ := h
  have hlen : (m.len : Int) = (m.inject.length : Int) + m.obfuscate.length := by
    simp [Manipulations.len]
  have hobf :
      map_option (py_get m.obfuscate)
          ((v.filter (fun i => decide ((m.inject.length : Int) ≤ i))).map
            (fun i => i - (m.inject.length : Int))) = none := by
    refine map_option_eq_none _ _ ?_
    refine ⟨i - (m.inject.length : Int), ?_, ?_⟩
    · exact List.mem_map.mpr ⟨i, List.mem_filter.mpr ⟨hi, by simp; omega⟩, rfl⟩
    · exact py_get_eq_none_of_ge _ _ (by omega)
  simp only [Manipulations.get_manipulations_from_vector, hobf]
  cases map_option (py_get m.inject)
      (v.filter (fun i => decide (i < (m.inject.length : Int)))) <;> rfl

/-- Claim C9 (amended): for a vector of indices in `[0, len(set))`,
`get_manipulations_from_vector` succeeds, the result's length equals the
vector's length and every selected candidate keeps its kind (it comes
from the corresponding `inject` / `obfuscate` sequence); a vector holding
an index `≥ len(set)` raises `IndexError`.  A *negative* index, although
outside `[0, len(set))`, does not necessarily fail: Python list indexing
wraps it around the end of the corresponding sequence (see the
counterexample `c9_counterexample`). -/
theorem c9_candidates_of_contract (m : Manipulations) (v w : List Int) :
    (v.all (fun i => decide (0 ≤ i) && decide (i < (m.len : Int))) = true →
      (m.get_manipulations_from_vector v).isSome = true
      ∧ ((m.get_manipulations_from_vector v).getD ⟨[], []⟩).len = v.length
      ∧ ((m.get_manipulations_from_vector v).getD ⟨[], []⟩).inject.all
          (fun c => decide (c ∈ m.inject)) = true
      ∧ ((m.get_manipulations_from_vector v).getD ⟨[], []⟩).obfuscate.all
          (fun c => decide (c ∈ m.obfuscate)) = true)
    ∧ (w.any (fun i => decide ((m.len : Int) ≤ i)) = true →
      m.get_manipulations_from_vector w = none) := by
  constructor
  · intro hv
    have hrange : ∀ i ∈ v, 0 ≤ i ∧ i < (m.len : Int) := by
      intro i hi
      have := List.all_eq_true.mp hv i hi
      constructor <;> [exact of_decide_eq_true (Bool.and_elim_left this);
        exact of_decide_eq_true (Bool.and_elim_right this)]
    rw [get_manipulations_from_vector_eq_some m v hrange]
    refine ⟨rfl, ?_, ?_, ?_⟩
    · show Manipulations.len _ = v.length
      have hperm := manip_filter_inject_add_filter_obfuscate m.inject.length v
      have hlen := hperm.length_eq
      simp only [List.length_append] at hlen
      simp only [Manipulations.len, Option.getD_some, List.length_map]
      exact hlen
    · refine List.all_eq_true.mpr ?_
      intro c hc
      simp only [Option.getD_some] at hc
      obtain ⟨i, hi, rfl⟩ := List.mem_map.mp hc
      have hmem := List.mem_filter.mp hi
      have h0 : 0 ≤ i := (hrange i hmem.1).1
      have h1 : (i < (m.inject.length : Int)) := by
        have := hmem.2; simpa using this
      have hlt : i.toNat < m.inject.length := by omega
      rw [List.getD_eq_getElem m.inject default hlt]
      exact decide_eq_true (List.getElem_mem hlt)
    · refine List.all_eq_true.mpr ?_
      intro c hc
      simp only [Option.getD_some] at hc
      obtain ⟨j, hj, rfl⟩ := List.mem_map.mp hc
      obtain ⟨i, hi, rfl⟩ := List.mem_map.mp hj
      have hmem := List.mem_filter.mp hi
      have hge : ((m.inject.length : Int) ≤ i) := by
        have := hmem.2; simpa using this
      have hlt : i < (m.len : Int) := (hrange i hmem.1).2
      have hlen : (m.len : Int) = (m.inject.length : Int) + m.obfuscate.length := by
        simp [Manipulations.len]
      have hlt2 : (i - (m.inject.length : Int)).toNat < m.obfuscate.length := by
        omega
      rw [List.getD_eq_getElem m.obfuscate default hlt2]
      exact decide_eq_true (List.getElem_mem hlt2)
  · intro hw
    obtain ⟨i, hi, hdec⟩ := List.any_eq_true.mp hw
    exact get_manipulations_from_vector_eq_none m w
      ⟨i, hi, of_decide_eq_true hdec⟩

/-- Witness for `c9_candidates_of_contract` at a concrete set and
vectors. -/
theorem c9_candidates_of_contract_witness :
    ((Manipulations.get_manipulations_from_vector
        ⟨[⟨"urls", "a"⟩], [⟨"urls", "b"⟩]⟩ [1, 0]).isSome = true
      ∧ ((Manipulations.get_manipulations_from_vector
          ⟨[⟨"urls", "a"⟩], [⟨"urls", "b"⟩]⟩ [1, 0]).getD ⟨[], []⟩).len = 2
      ∧ ((Manipulations.get_manipulations_from_vector
          ⟨[⟨"urls", "a"⟩], [⟨"urls", "b"⟩]⟩ [1, 0]).getD ⟨[], []⟩).inject.all
          (fun c => decide (c ∈ [⟨"urls", "a"⟩])) = true
      ∧ ((Manipulations.get_manipulations_from_vector
          ⟨[⟨"urls", "a"⟩], [⟨"urls", "b"⟩]⟩ [1, 0]).getD ⟨[], []⟩).obfuscate.all
          (fun c => decide (c ∈ [⟨"urls", "b"⟩])) = true)
    ∧ Manipulations.get_manipulations_from_vector
        ⟨[⟨"urls", "a"⟩], [⟨"urls", "b"⟩]⟩ [5] = none :=
  ⟨(c9_candidates_of_contract ⟨[⟨"urls", "a"⟩], [⟨"urls", "b"⟩]⟩ [1, 0] [5]).1
      (by decide),
    (c9_candidates_of_contract ⟨[⟨"urls", "a"⟩], [⟨"urls", "b"⟩]⟩ [1, 0] [5]).2
      (by decide)⟩

/-- Counterexample to claim C9 as stated: the index `-1` lies outside
`[0, len(set))`, yet `get_manipulations_from_vector` does not fail — the
Python list indexing wraps it to the last injection. -/
theorem c9_counterexample :
    Manipulations.get_manipulations_from_vector
        ⟨[⟨"urls", "a"⟩, ⟨"urls", "b"⟩], []⟩ [-1]
      = some ⟨[⟨"urls", "b"⟩], []⟩
    ∧ ¬(0 ≤ (-1 : Int)) := by
  exact ⟨by decide, by decide⟩

/-- Claim C10: `get_manipulations_from_vector` performs no deduplication:
for any in-range vector the selected candidates, as a multiset, are
exactly the vector's entries mapped through the index space (`addr_of`),
so a repeated index contributes its candidate once per occurrence, the
result's length equals the vector's length, and the returned object can
hold duplicate candidates. -/
theorem c10_no_dedup (m : Manipulations) (v : List Int)
    (h : v.all (fun i => decide (0 ≤ i) && decide (i < (m.len : Int))) = true) :
    (m.get_manipulations_from_vector v).isSome = true
    ∧ ((m.get_manipulations_from_vector v).getD ⟨[], []⟩).len = v.length
    ∧ (((m.get_manipulations_from_vector v).getD ⟨[], []⟩).inject
          ++ ((m.get_manipulations_from_vector v).getD ⟨[], []⟩).obfuscate
        : Multiset Feat)
      = ↑(v.map (addr_of m)) := by
  have hrange : ∀ i ∈ v, 0 ≤ i ∧ i < (m.len : Int) := by
    intro i hi
    have := List.all_eq_true.mp h i hi
    constructor <;> [exact of_decide_eq_true (Bool.and_elim_left this);
      exact of_decide_eq_true (Bool.and_elim_right this)]
  have hlenI : (m.len : Int) = (m.inject.length : Int) + m.obfuscate.length := by
    simp [Manipulations.len]
  rw [get_manipulations_from_vector_eq_some m v hrange]
  have hperm := manip_filter_inject_add_filter_obfuscate m.inject.length v
  refine ⟨rfl, ?_, ?_⟩
  · have hlen := hperm.length_eq
    simp only [List.length_append] at hlen
    simp only [Manipulations.len, Option.getD_some, List.length_map]
    exact hlen
  · simp only [Option.getD_some, List.map_map]
    rw [Multiset.coe_eq_coe]
    have hfst :
        (v.filter (fun i => decide (i < (m.inject.length : Int)))).map
            (fun i => m.inject.getD i.toNat default)
          = (v.filter (fun i => decide (i < (m.inject.length : Int)))).map
              (addr_of m) := by
      refine List.map_congr_left ?_
      intro i hi
      have hmem := List.mem_filter.mp hi
      have h0 : 0 ≤ i := (hrange i hmem.1).1
      have h1 : i < (m.inject.length : Int) := by
        have := hmem.2; simpa using this
      have hlt : i.toNat < m.inject.length := by omega
      unfold addr_of
      rw [List.getD_append _ _ _ _ hlt]
    have hsnd :
        (v.filter (fun i => decide ((m.inject.length : Int) ≤ i))).map
            ((fun i => m.obfuscate.getD i.toNat default) ∘
              fun i => i - (m.inject.length : Int))
          = (v.filter (fun i => decide ((m.inject.length : Int) ≤ i))).map
              (addr_of m) := by
      refine List.map_congr_left ?_
      intro i hi
      have hmem := List.mem_filter.mp hi
      have hge : (m.inject.length : Int) ≤ i := by
        have := hmem.2; simpa using this
      have hlt : i < (m.len : Int) := (hrange i hmem.1).2
      have hgeN : m.inject.length ≤ i.toNat := by omega
      simp only [Function.comp]
      unfold addr_of
      rw [List.getD_append_right _ _ _ _ hgeN]
      congr 1
      omega
    rw [hfst, hsnd, ← List.map_append]
    exact hperm.map (addr_of m)

/-- Witness for `c10_no_dedup`: the vector `[1, 1, 0]` repeats the
obfuscation index `1`; the result has length 3 and the repeated
candidate appears twice. -/
theorem c10_no_dedup_witness :
    (Manipulations.get_manipulations_from_vector
        ⟨[⟨"urls", "a"⟩], [⟨"urls", "b"⟩]⟩ [1, 1, 0]).isSome = true
    ∧ ((Manipulations.get_manipulations_from_vector
        ⟨[⟨"urls", "a"⟩], [⟨"urls", "b"⟩]⟩ [1, 1, 0]).getD ⟨[], []⟩).len = 3
    ∧ (((Manipulations.get_manipulations_from_vector
          ⟨[⟨"urls", "a"⟩], [⟨"urls", "b"⟩]⟩ [1, 1, 0]).getD ⟨[], []⟩).inject
        ++ ((Manipulations.get_manipulations_from_vector
          ⟨[⟨"urls", "a"⟩], [⟨"urls", "b"⟩]⟩ [1, 1, 0]).getD ⟨[], []⟩).obfuscate
        : Multiset Feat)
      = ↑([1, 1, 0].map (addr_of ⟨[⟨"urls", "a"⟩], [⟨"urls", "b"⟩]⟩)) :=
  c10_no_dedup ⟨[⟨"urls", "a"⟩], [⟨"urls", "b"⟩]⟩ [1, 1, 0] (by decide)

/-- Claim C2 (amended): `get_vector_from_manipulations` uses only the
lengths of its argument's sequences, so the round trip with
`get_manipulations_from_vector` recovers the original vector exactly on
the canonical prefix vectors (the first `kI` injection indices followed
by the first `kO` obfuscation indices; in particular the full index
vector) — on any other in-range vector it returns the prefix vector of
the same shape instead of the original (`c2_counterexample`), so the two
maps are not mutual inverses on all valid index vectors. -/
theorem c2_roundtrip_prefix (sp : MSpace) (kI kO : Nat)
    (hI : kI ≤ sp.inject.length) (hO : kO ≤ sp.obfuscate.length) :
    (sp.get_all_manipulations.get_manipulations_from_vector
        (prefix_vector sp kI kO)).map sp.get_vector_from_manipulations
      = some (prefix_vector sp kI kO) := by
  have hlen : ((sp.get_all_manipulations).len : Int)
      = (sp.inject.length : Int) + sp.obfuscate.length := by
    simp [MSpace.get_all_manipulations, Manipulations.len]
  have hrange : ∀ i ∈ prefix_vector sp kI kO,
      0 ≤ i ∧ i < ((sp.get_all_manipulations).len : Int) := by
    intro i hi
    simp only [prefix_vector, List.mem_append, List.mem_map, List.mem_range] at hi
    rcases hi with ⟨j, hj, rfl⟩ | ⟨j, hj, rfl⟩ <;> constructor <;>
      simp only [Int.ofNat_eq_coe] <;> omega

  rw [get_manipulations_from_vector_eq_some _ _ hrange]
  have hfiltX :
      ((List.range kI).map Int.ofNat).filter
          (fun i => decide (i < (sp.inject.length : Int)))
        = (List.range kI).map Int.ofNat := by
    refine List.filter_eq_self.mpr ?_
    intro i hi
    simp only [List.mem_map, List.mem_range] at hi
    obtain ⟨j, hj, rfl⟩ := hi
    exact decide_eq_true (by simp only [Int.ofNat_eq_coe]; omega)
  have hfiltX2 :
      ((List.range kI).map Int.ofNat).filter
          (fun i => decide ((sp.inject.length : Int) ≤ i)) = [] := by
    refine List.filter_eq_nil_iff.mpr ?_
    intro i hi
    simp only [List.mem_map, List.mem_range] at hi
    obtain ⟨j, hj, rfl⟩ := hi
    simp only [decide_eq_true_eq, Int.ofNat_eq_coe]
    omega
  have hfiltY :
      ((List.range kO).map (fun i => Int.ofNat i + sp.inject.length)).filter
          (fun i => decide (i < (sp.inject.length : Int))) = [] := by
    refine List.filter_eq_nil_iff.mpr ?_
    intro i hi
    simp only [List.mem_map, List.mem_range] at hi
    obtain ⟨j, hj, rfl⟩ := hi
    simp only [decide_eq_true_eq, Int.ofNat_eq_coe]
    omega
  have hfiltY2 :
      ((List.range kO).map (fun i => Int.ofNat i + sp.inject.length)).filter
          (fun i => decide ((sp.inject.length : Int) ≤ i))
        = (List.range kO).map (fun i => Int.ofNat i + sp.inject.length) := by
    refine List.filter_eq_self.mpr ?_
    intro i hi
    simp only [List.mem_map, List.mem_range] at hi
    obtain ⟨j, hj, rfl⟩ := hi
    exact decide_eq_true (by simp only [Int.ofNat_eq_coe]; omega)
  simp only [prefix_vector, MSpace.get_all_manipulations, List.filter_append,
    hfiltX, hfiltX2, hfiltY, hfiltY2, List.nil_append, List.append_nil]
  unfold MSpace.get_vector_from_manipulations
  simp only [Option.map_some', List.map_map, List.length_map, List.length_range]

/-- Witness for `c2_roundtrip_prefix` on a two-injection, one-obfuscation
space with `kI = 1`, `kO = 1`. -/
theorem c2_roundtrip_prefix_witness :
    ((MSpace.get_all_manipulations
          ⟨[⟨"urls", "a"⟩, ⟨"urls", "b"⟩], [⟨"urls", "c"⟩], ∅⟩).get_manipulations_from_vector
        (prefix_vector ⟨[⟨"urls", "a"⟩, ⟨"urls", "b"⟩], [⟨"urls", "c"⟩], ∅⟩ 1 1)).map
      (MSpace.get_vector_from_manipulations
        ⟨[⟨"urls", "a"⟩, ⟨"urls", "b"⟩], [⟨"urls", "c"⟩], ∅⟩)
      = some (prefix_vector ⟨[⟨"urls", "a"⟩, ⟨"urls", "b"⟩], [⟨"urls", "c"⟩], ∅⟩ 1 1) :=
  c2_roundtrip_prefix ⟨[⟨"urls", "a"⟩, ⟨"urls", "b"⟩], [⟨"urls", "c"⟩], ∅⟩ 1 1
    (by decide) (by decide)

/-- Claim C7: `ManipulationSpace.__init__` builds `inject` as exactly the
pool candidates that are absent from the artifact's features, whose
category is injectable and which — for the API/suspicious-call
categories — carry one of the return-type suffixes `()V`, `()Z`, `()I`;
and `obfuscate` as exactly the artifact's features that were not selected
for injection and whose category is obfuscatable.  (The hypotheses say
every input category occurs in the fixed feature table; otherwise the
Python constructor raises `KeyError`.) -/
theorem c7_space_construction (pool mal : List Feat)
    (hpool : pool.all (fun f => (features_table f.category).isSome) = true)
    (hmal : mal.all (fun f => (features_table f.category).isSome) = true) :
    (MSpace.init pool mal).inject
      = pool.filter (fun f =>
          decide (f ∉ mal) && can_inject f.category
            && (!is_api_susp f.category || ends_ok f.ident))
    ∧ (MSpace.init pool mal).obfuscate
      = mal.filter (fun f =>
          decide (f ∉ (MSpace.init pool mal).inject) && can_obfuscate f.category) := by
  constructor
  · have hinj : (MSpace.init pool mal).inject
        = MSpace.get_valid_injections (pool.filter (fun v => decide (v ∉ mal))) := rfl
    rw [hinj]
    unfold MSpace.get_valid_injections
    rw [List.filter_filter]
    refine List.filter_congr ?_
    intro f _
    cases h1 : decide (f ∉ mal) <;> cases h2 : can_inject f.category <;>
      cases h3 : is_api_susp f.category <;> cases h4 : ends_ok f.ident <;> rfl
  · have hobf : (MSpace.init pool mal).obfuscate
        = MSpace.get_valid_obfuscations
            (mal.filter (fun f => decide (f ∉ (MSpace.init pool mal).inject))) := rfl
    rw [hobf]
    unfold MSpace.get_valid_obfuscations
    rw [List.filter_filter]
    refine List.filter_congr ?_
    intro f _
    exact Bool.and_comm _ _

/-- Witness for `c7_space_construction` on a pool exercising every filter
clause (duplicate of an artifact feature, wrong return type,
non-injectable category). -/
theorem c7_space_construction_witness :
    (MSpace.init
        [⟨"api_calls", "m()V"⟩, ⟨"api_calls", "m()F"⟩, ⟨"urls", "u"⟩,
          ⟨"activities", "A"⟩, ⟨"urls", "dup"⟩]
        [⟨"urls", "dup"⟩, ⟨"activities", "B"⟩, ⟨"api_calls", "k()Z"⟩]).inject
      = [⟨"api_calls", "m()V"⟩, ⟨"api_calls", "m()F"⟩, ⟨"urls", "u"⟩,
          ⟨"activities", "A"⟩, ⟨"urls", "dup"⟩].filter (fun f =>
          decide (f ∉ [⟨"urls", "dup"⟩, ⟨"activities", "B"⟩, ⟨"api_calls", "k()Z"⟩])
            && can_inject f.category
            && (!is_api_susp f.category || ends_ok f.ident))
    ∧ (MSpace.init
        [⟨"api_calls", "m()V"⟩, ⟨"api_calls", "m()F"⟩, ⟨"urls", "u"⟩,
          ⟨"activities", "A"⟩, ⟨"urls", "dup"⟩]
        [⟨"urls", "dup"⟩, ⟨"activities", "B"⟩, ⟨"api_calls", "k()Z"⟩]).obfuscate
      = [⟨"urls", "dup"⟩, ⟨"activities", "B"⟩, ⟨"api_calls", "k()Z"⟩].filter (fun f =>
          decide (f ∉ (MSpace.init
            [⟨"api_calls", "m()V"⟩, ⟨"api_calls", "m()F"⟩, ⟨"urls", "u"⟩,
              ⟨"activities", "A"⟩, ⟨"urls", "dup"⟩]
            [⟨"urls", "dup"⟩, ⟨"activities", "B"⟩, ⟨"api_calls", "k()Z"⟩]).inject)
            && can_obfuscate f.category) :=
  c7_space_construction
    [⟨"api_calls", "m()V"⟩, ⟨"api_calls", "m()F"⟩, ⟨"urls", "u"⟩,
      ⟨"activities", "A"⟩, ⟨"urls", "dup"⟩]
    [⟨"urls", "dup"⟩, ⟨"activities", "B"⟩, ⟨"api_calls", "k()Z"⟩]
    (by decide) (by decide)

theorem mem_recurse_apply_inject (oracle : Manipulations → Bool) (jobs : Nat) :
    ∀ (fuel : Nat) (m : Manipulations) (c : Feat),
      c ∈ (recurse_apply oracle jobs fuel m).inject →
      ∃ S, oracle S = true ∧ c ∈ S.inject := by
  intro fuel
  induction fuel with
  | zero => intro m c hc; simp [recurse_apply] at hc
  | succ fuel ih =>
    intro m c hc
    rw [recurse_apply] at hc
    by_cases ho : oracle m
    · rw [if_pos ho] at hc
      exact ⟨m, ho, hc⟩
    · rw [if_neg ho] at hc
      by_cases hl : 1 < m.len
      · rw [if_pos hl] at hc
        simp only [join_manips, List.map_map, List.mem_flatten, List.mem_map] at hc
        obtain ⟨l, ⟨m', hm', rfl⟩, hcl⟩ := hc
        exact ih m' c hcl
      · rw [if_neg hl] at hc
        simp at hc

theorem mem_recurse_apply_obfuscate (oracle : Manipulations → Bool) (jobs : Nat) :
    ∀ (fuel : Nat) (m : Manipulations) (c : Feat),
      c ∈ (recurse_apply oracle jobs fuel m).obfuscate →
      ∃ S, oracle S = true ∧ c ∈ S.obfuscate := by
  intro fuel
  induction fuel with
  | zero => intro m c hc; simp [recurse_apply] at hc
  | succ fuel ih =>
    intro m c hc
    rw [recurse_apply] at hc
    by_cases ho : oracle m
    · rw [if_pos ho] at hc
      exact ⟨m, ho, hc⟩
    · rw [if_neg ho] at hc
      by_cases hl : 1 < m.len
      · rw [if_pos hl] at hc
        simp only [join_manips, List.map_map, List.mem_flatten, List.mem_map] at hc
        obtain ⟨l, ⟨m', hm', rfl⟩, hcl⟩ := hc
        exact ih m' c hcl
      · rw [if_neg hl] at hc
        simp at hc

/-- Claim C4 (amended): a candidate is accepted by
`get_error_free_manipulations` only as a member of a candidate set whose
joint build succeeded, so under a build oracle for which every singleton
of a successful set also builds (the added hypothesis), no accepted
candidate's individual singleton build fails.  For an arbitrary,
non-monotone build oracle the claim is false (`c4_counterexample`): a set
can build as a whole while each of its singletons fails, and the filter
accepts the whole set without ever building the singletons. -/
theorem c4_singleton_sound (oracle : Manipulations → Bool) (jobs fuel : Nat)
    (m : Manipulations)
    (hmono : ∀ S, oracle S = true →
      S.inject.all (fun c => oracle ⟨[c], []⟩) = true
      ∧ S.obfuscate.all (fun c => oracle ⟨[], [c]⟩) = true) :
    (recurse_apply oracle jobs fuel m).inject.all (fun c => oracle ⟨[c], []⟩) = true
    ∧ (recurse_apply oracle jobs fuel m).obfuscate.all
        (fun c => oracle ⟨[], [c]⟩) = true := by
  constructor
  · refine List.all_eq_true.mpr ?_
    intro c hc
    obtain ⟨S, hS, hcS⟩ := mem_recurse_apply_inject oracle jobs fuel m c hc
    exact List.all_eq_true.mp (hmono S hS).1 c hcS
  · refine List.all_eq_true.mpr ?_
    intro c hc
    obtain ⟨S, hS, hcS⟩ := mem_recurse_apply_obfuscate oracle jobs fuel m c hc
    exact List.all_eq_true.mp (hmono S hS).2 c hcS

/-- Witness for `c4_singleton_sound` with the always-succeeding build
oracle (trivially singleton-monotone). -/
theorem c4_singleton_sound_witness :
    (recurse_apply (fun _ => true) 1 2 ⟨[⟨"urls", "a"⟩], [⟨"urls", "b"⟩]⟩).inject.all
        (fun c => (fun _ => true) (⟨[c], []⟩ : Manipulations)) = true
    ∧ (recurse_apply (fun _ => true) 1 2
          ⟨[⟨"urls", "a"⟩], [⟨"urls", "b"⟩]⟩).obfuscate.all
        (fun c => (fun _ => true) (⟨[], [c]⟩ : Manipulations)) = true :=
  c4_singleton_sound (fun _ => true) 1 2 ⟨[⟨"urls", "a"⟩], [⟨"urls", "b"⟩]⟩
    (fun _ _ => ⟨List.all_eq_true.mpr (fun _ _ => rfl),
      List.all_eq_true.mpr (fun _ _ => rfl)⟩)

/-- Counterexample to claim C4 as stated: under the build oracle that
succeeds exactly on two-injection sets, the filter accepts both
candidates of `⟨[a, b], []⟩` (their joint build succeeds), yet the
singleton build of `a` fails under that same oracle — with an arbitrary
build oracle the accepted set can contain candidates whose individual
singleton build fails. -/
theorem c4_counterexample :
    recurse_apply (fun s => decide (s.inject.length = 2)) 2 3
        ⟨[⟨"urls", "a"⟩, ⟨"urls", "b"⟩], []⟩
      = ⟨[⟨"urls", "a"⟩, ⟨"urls", "b"⟩], []⟩
    ∧ decide ((Manipulations.mk [⟨"urls", "a"⟩] []).inject.length = 2) = false
    ∧ ⟨"urls", "a"⟩ ∈ (recurse_apply (fun s => decide (s.inject.length = 2)) 2 3
        ⟨[⟨"urls", "a"⟩, ⟨"urls", "b"⟩], []⟩).inject := by
  exact ⟨by decide, by decide, by decide⟩

theorem filter_map_some_id (f : α → Option α) :
    ∀ (l : List α), (∀ a ∈ l, f a = some a) → l.filterMap f = l := by
  intro l
  induction l with
  | nil => intro _; rfl
  | cons a as ih =>
    intro h
    rw [List.filterMap_cons, h a (by simp), ih (fun x hx => h x (by simp [hx]))]

theorem slice_step_range (L s k : Nat) :
    slice_step (List.range L) s k
      = (List.range L).filter
          (fun j => decide (s ≤ j) && decide ((j - s) % k = 0)) := by
  unfold slice_step
  rw [List.length_range]
  refine filter_map_some_id _ _ ?_
  intro j hj
  exact List.getElem?_range (List.mem_range.mp (List.mem_filter.mp hj).1)

theorem mem_slice_step_range {L s k x : Nat} :
    x ∈ slice_step (List.range L) s k ↔ x < L ∧ s ≤ x ∧ (x - s) % k = 0 := by
  rw [slice_step_range]
  simp [List.mem_filter, List.mem_range, and_assoc]

theorem count_slice_step_range (L s k x : Nat) :
    List.count x (slice_step (List.range L) s k)
      = if x < L ∧ s ≤ x ∧ (x - s) % k = 0 then 1 else 0 := by
  by_cases h : x < L ∧ s ≤ x ∧ (x - s) % k = 0
  · rw [if_pos h]
    rw [slice_step_range]
    exact List.count_eq_one_of_mem ((List.nodup_range L).filter _)
      (by rw [← slice_step_range]; exact mem_slice_step_range.mpr h)
  · rw [if_neg h]
    exact List.count_eq_zero_of_not_mem
      (fun hmem => h (mem_slice_step_range.mp hmem))

theorem get_idxs_eq_range (m : Manipulations) :
    m.get_idxs = List.range m.len := by
  unfold Manipulations.get_idxs Manipulations.len
  rw [List.range_add]
  congr 1
  exact List.map_congr_left (fun i _ => Nat.add_comm i m.inject.length)

theorem sum_map_ite_one (l : List α) (p : α → Prop) [DecidablePred p] :
    (l.map (fun a => if p a then 1 else 0)).sum
      = (l.filter (fun a => decide (p a))).length := by
  induction l with
  | nil => rfl
  | cons a as ih => by_cases h : p a <;> simp [h, ih, Nat.add_comm]

theorem stride_index_eq_mod {k i x : Nat} (hik : i < k) (hle : i ≤ x)
    (hmod : (x - i) % k = 0) : i = x % k := by
  obtain ⟨t, ht⟩ := Nat.dvd_of_mod_eq_zero hmod
  have hx : x = i + k * t := by omega
  rw [hx, Nat.add_mul_mod_self_left, Nat.mod_eq_of_lt hik]

theorem filter_stride_hit (k x : Nat) (hk : 1 ≤ k) :
    (List.range k).filter (fun i => decide (i ≤ x ∧ (x - i) % k = 0))
      = [x % k] := by
  have hcong : ∀ i ∈ List.range k,
      decide (i ≤ x ∧ (x - i) % k = 0) = decide (i = x % k) := by
    intro i hi
    have hik : i < k := List.mem_range.mp hi
    refine decide_eq_decide.mpr ?_
    constructor
    · rintro ⟨hle, hmod⟩
      exact stride_index_eq_mod hik hle hmod
    · rintro rfl
      refine ⟨Nat.mod_le x k, ?_⟩
      have hdm := Nat.div_add_mod x k
      have hsub : x - x % k = k * (x / k) := by omega
      rw [hsub, Nat.mul_mod_right]
  rw [List.filter_congr hcong, List.filter_eq,
    List.count_eq_one_of_mem (List.nodup_range k)
      (List.mem_range.mpr (Nat.mod_lt x hk))]
  rfl

theorem stride_subvectors_flatten_perm (m : Manipulations) (jobs : Nat)
    (hjobs : 1 ≤ jobs) (hlen : 1 ≤ m.len) :
    (stride_subvectors m jobs).flatten.Perm m.get_idxs := by
  have hk : 1 ≤ min jobs m.len := le_min hjobs hlen
  rw [List.perm_iff_count]
  intro x
  unfold stride_subvectors
  simp only [get_idxs_eq_range, List.count_flatten, List.map_map,
    Function.comp_def]
  rw [List.map_congr_left
    (fun i _ => count_slice_step_range m.len i (min jobs m.len) x)]
  by_cases hx : x < m.len
  · rw [List.count_eq_one_of_mem (List.nodup_range _) (List.mem_range.mpr hx)]
    have hcong : ∀ i ∈ List.range (min jobs m.len),
        (if x < m.len ∧ i ≤ x ∧ (x - i) % min jobs m.len = 0 then 1 else 0)
          = if i ≤ x ∧ (x - i) % min jobs m.len = 0 then 1 else 0 := by
      intro i _
      by_cases h : i ≤ x ∧ (x - i) % min jobs m.len = 0
      · rw [if_pos ⟨hx, h⟩, if_pos h]
      · rw [if_neg (fun hh => h hh.2), if_neg h]
    rw [List.map_congr_left hcong,
      sum_map_ite_one (List.range (min jobs m.len))
        (fun i => i ≤ x ∧ (x - i) % min jobs m.len = 0),
      filter_stride_hit (min jobs m.len) x hk]
    rfl
  · rw [List.count_eq_zero_of_not_mem (fun hmem => hx (List.mem_range.mp hmem))]
    refine List.sum_eq_zero ?_
    intro y hy
    obtain ⟨i, _, rfl⟩ := List.mem_map.mp hy
    rw [if_neg (fun hh => hx hh.1)]

/-- Claim C8: in the failing-build recursion step of
`get_error_free_manipulations`, the `k = min(n_jobs, len(set))`
stride-`k` sub-vectors `idxs[i::k]` are pairwise disjoint and their
concatenation is a permutation of the set's index range (every index is
covered exactly once); each sub-vector is recursed on by construction of
`recurse_apply`; and a failing singleton contributes nothing to the
accumulated result. -/
theorem c8_recursion_partition (m : Manipulations) (n_jobs : Nat)
    (hjobs : 1 ≤ n_jobs) (hlen : 1 < m.len) :
    List.Pairwise (fun a b => ∀ x ∈ a, x ∉ b) (stride_subvectors m n_jobs)
    ∧ (stride_subvectors m n_jobs).flatten.Perm m.get_idxs
    ∧ (stride_subvectors m n_jobs).length = min n_jobs m.len
    ∧ ∀ (oracle : Manipulations → Bool) (fuel : Nat) (m' : Manipulations),
        m'.len = 1 → oracle m' = false →
        recurse_apply oracle n_jobs (fuel + 1) m' = ⟨[], []⟩ := by
  refine ⟨?_, ?_, ?_, ?_⟩
  · unfold stride_subvectors
    refine List.pairwise_map.mpr ?_
    refine (List.pairwise_lt_range _).imp_of_mem ?_
    intro i j hi hj hij x hxi hxj
    have hik : i < min n_jobs m.len := List.mem_range.mp hi
    have hjk : j < min n_jobs m.len := List.mem_range.mp hj
    rw [get_idxs_eq_range] at hxi hxj
    obtain ⟨hxL, hle_i, hmod_i⟩ := mem_slice_step_range.mp hxi
    obtain ⟨_, hle_j, hmod_j⟩ := mem_slice_step_range.mp hxj
    have h1 := stride_index_eq_mod hik hle_i hmod_i
    have h2 := stride_index_eq_mod hjk hle_j hmod_j
    omega
  · exact stride_subvectors_flatten_perm m n_jobs hjobs (by omega)
  · unfold stride_subvectors
    rw [List.length_map, List.length_range]
  · intro oracle fuel m' h1 ho
    rw [recurse_apply, if_neg (by simp [ho]), if_neg (by omega)]

/-- Witness for `c8_recursion_partition` on a 2-injection, 1-obfuscation
set with parallelism 2; the singleton clause is instantiated with the
always-failing build oracle. -/
theorem c8_recursion_partition_witness :
    List.Pairwise (fun a b => ∀ x ∈ a, x ∉ b)
      (stride_subvectors ⟨[⟨"urls", "a"⟩, ⟨"urls", "b"⟩], [⟨"urls", "c"⟩]⟩ 2)
    ∧ (stride_subvectors
        ⟨[⟨"urls", "a"⟩, ⟨"urls", "b"⟩], [⟨"urls", "c"⟩]⟩ 2).flatten.Perm
        (Manipulations.get_idxs ⟨[⟨"urls", "a"⟩, ⟨"urls", "b"⟩], [⟨"urls", "c"⟩]⟩)
    ∧ (stride_subvectors
        ⟨[⟨"urls", "a"⟩, ⟨"urls", "b"⟩], [⟨"urls", "c"⟩]⟩ 2).length
      = min 2 (Manipulations.len ⟨[⟨"urls", "a"⟩, ⟨"urls", "b"⟩], [⟨"urls", "c"⟩]⟩)
    ∧ recurse_apply (fun _ => false) 2 1 ⟨[⟨"urls", "z"⟩], []⟩ = ⟨[], []⟩ :=
  ⟨(c8_recursion_partition ⟨[⟨"urls", "a"⟩, ⟨"urls", "b"⟩], [⟨"urls", "c"⟩]⟩ 2
      (by decide) (by decide)).1,
    (c8_recursion_partition ⟨[⟨"urls", "a"⟩, ⟨"urls", "b"⟩], [⟨"urls", "c"⟩]⟩ 2
      (by decide) (by decide)).2.1,
    (c8_recursion_partition ⟨[⟨"urls", "a"⟩, ⟨"urls", "b"⟩], [⟨"urls", "c"⟩]⟩ 2
      (by decide) (by decide)).2.2.1,
    (c8_recursion_partition ⟨[⟨"urls", "a"⟩, ⟨"urls", "b"⟩], [⟨"urls", "c"⟩]⟩ 2
      (by decide) (by decide)).2.2.2 (fun _ => false) 0 ⟨[⟨"urls", "z"⟩], []⟩
      (by decide) rfl⟩

theorem add_to_groups_keys (gs : List (String × List Feat)) (f : Feat) :
    (add_to_groups gs f).map Prod.fst
      = if gs.any (fun g => g.1 = f.category) then gs.map Prod.fst
        else gs.map Prod.fst ++ [f.category] := by
  unfold add_to_groups
  by_cases h : gs.any (fun g => g.1 = f.category) = true
  · rw [if_pos h, if_pos h, List.map_map]
    refine List.map_congr_left ?_
    intro g _
    by_cases hg : g.1 = f.category <;> simp [hg]
  · rw [if_neg h, if_neg h, List.map_append]
    rfl

theorem group_keys_mem (cat : String) :
    ∀ (fs : List Feat) (acc : List (String × List Feat)),
      (cat ∈ ((fs.foldl add_to_groups acc).map Prod.fst)
        ↔ cat ∈ acc.map Prod.fst ∨ ∃ f ∈ fs, f.category = cat) := by
  intro fs
  induction fs with
  | nil => intro acc; simp
  | cons f fs ih =>
    intro acc
    rw [List.foldl_cons, ih (add_to_groups acc f)]
    have hkeys : cat ∈ (add_to_groups acc f).map Prod.fst
        ↔ cat ∈ acc.map Prod.fst ∨ cat = f.category := by
      rw [add_to_groups_keys]
      by_cases h : acc.any (fun g => g.1 = f.category) = true
      · rw [if_pos h]
        obtain ⟨g, hg, hgc⟩ := List.any_eq_true.mp h
        constructor
        · exact Or.inl
        · rintro (hc | rfl)
          · exact hc
          · exact List.mem_map.mpr ⟨g, hg, of_decide_eq_true hgc⟩
      · rw [if_neg h]
        simp [eq_comm]
    rw [hkeys]
    constructor
    · rintro ((hc | rfl) | ⟨f', hf', rfl⟩)
      · exact Or.inl hc
      · exact Or.inr ⟨f, by simp⟩
      · exact Or.inr ⟨f', by simp [hf']⟩
    · rintro (hc | ⟨f', hf', rfl⟩)
      · exact Or.inl (Or.inl hc)
      · rcases List.mem_cons.mp hf' with rfl | hmem
        · exact Or.inl (Or.inr rfl)
        · exact Or.inr ⟨f', hmem, rfl⟩

theorem group_keys_nodup :
    ∀ (fs : List Feat) (acc : List (String × List Feat)),
      (acc.map Prod.fst).Nodup → ((fs.foldl add_to_groups acc).map Prod.fst).Nodup := by
  intro fs
  induction fs with
  | nil => intro acc h; exact h
  | cons f fs ih =>
    intro acc h
    rw [List.foldl_cons]
    refine ih (add_to_groups acc f) ?_
    rw [add_to_groups_keys]
    by_cases hany : acc.any (fun g => g.1 = f.category) = true
    · rw [if_pos hany]; exact h
    · rw [if_neg hany]
      have hnot : f.category ∉ acc.map Prod.fst := by
        intro hmem
        obtain ⟨g, hg, hgc⟩ := List.mem_map.mp hmem
        exact hany (List.any_eq_true.mpr ⟨g, hg, decide_eq_true hgc⟩)
      simp [List.nodup_append, h, hnot]

theorem group_buckets (fs : List Feat) :
    ∀ (acc : List (String × List Feat)),
      (∀ g ∈ acc, ∀ x ∈ g.2, x.category = g.1) →
      ∀ g ∈ fs.foldl add_to_groups acc, ∀ x ∈ g.2, x.category = g.1 := by
  induction fs with
  | nil => intro acc h; exact h
  | cons f fs ih =>
    intro acc h
    rw [List.foldl_cons]
    refine ih (add_to_groups acc f) ?_
    intro g hg x hx
    unfold add_to_groups at hg
    by_cases hany : acc.any (fun g => g.1 = f.category) = true
    · rw [if_pos hany] at hg
      obtain ⟨g0, hg0, hup⟩ := List.mem_map.mp hg
      by_cases hc : g0.1 = f.category
      · rw [if_pos hc] at hup
        subst hup
        simp only at hx ⊢
        rcases List.mem_append.mp hx with hx0 | hx1
        · exact h g0 hg0 x hx0
        · rw [List.mem_singleton.mp hx1, hc]
      · rw [if_neg hc] at hup
        subst hup
        exact h g0 hg0 x hx
    · rw [if_neg hany] at hg
      rcases List.mem_append.mp hg with hg0 | hg1
      · exact h g hg0 x hx
      · rw [List.mem_singleton.mp hg1] at hx ⊢
        simp only at hx ⊢
        rw [List.mem_singleton.mp hx]

theorem dict_update_keys_mem (a b : List (String × List Feat)) (cat : String) :
    cat ∈ (dict_update a b).map Prod.fst
      ↔ cat ∈ a.map Prod.fst ∨ cat ∈ b.map Prod.fst := by
  unfold dict_update
  rw [List.map_append]
  have hfst : (a.map (fun g =>
      match b.find? (fun h => h.1 = g.1) with
      | some h => (g.1, h.2)
      | none => g)).map Prod.fst = a.map Prod.fst := by
    rw [List.map_map]
    refine List.map_congr_left ?_
    intro g _
    simp only [Function.comp_def]
    cases b.find? (fun h => h.1 = g.1) <;> rfl
  rw [hfst, List.mem_append]
  constructor
  · rintro (ha | hb)
    · exact Or.inl ha
    · obtain ⟨g, hg, rfl⟩ := List.mem_map.mp hb
      exact Or.inr (List.mem_map.mpr ⟨g, (List.mem_filter.mp hg).1, rfl⟩)
  · rintro (ha | hb)
    · exact Or.inl ha
    · by_cases hina : cat ∈ a.map Prod.fst
      · exact Or.inl hina
      · obtain ⟨g, hg, rfl⟩ := List.mem_map.mp hb
        refine Or.inr (List.mem_map.mpr ⟨g, List.mem_filter.mpr ⟨hg, ?_⟩, rfl⟩)
        simp only [Bool.not_eq_eq_eq_not, Bool.not_true, List.any_eq_false,
          decide_eq_false_iff_not]
        intro g0 hg0 hc
        exact hina (List.mem_map.mpr ⟨g0, hg0, of_decide_eq_true hc⟩)

theorem dict_update_keys_nodup (a b : List (String × List Feat))
    (hna : (a.map Prod.fst).Nodup) (hnb : (b.map Prod.fst).Nodup) :
    ((dict_update a b).map Prod.fst).Nodup := by
  unfold dict_update
  rw [List.map_append]
  have hfst : (a.map (fun g =>
      match b.find? (fun h => h.1 = g.1) with
      | some h => (g.1, h.2)
      | none => g)).map Prod.fst = a.map Prod.fst := by
    rw [List.map_map]
    refine List.map_congr_left ?_
    intro g _
    simp only [Function.comp_def]
    cases b.find? (fun h => h.1 = g.1) <;> rfl
  rw [hfst, List.nodup_append]
  refine ⟨hna, ?_, ?_⟩
  · exact ((List.filter_sublist b).map Prod.fst).nodup hnb
  · intro cat hca hcb
    obtain ⟨g, hg, rfl⟩ := List.mem_map.mp hcb
    have hfil := (List.mem_filter.mp hg).2
    simp only [Bool.not_eq_eq_eq_not, Bool.not_true, List.any_eq_false,
      decide_eq_false_iff_not] at hfil
    obtain ⟨g0, hg0, hgc⟩ := List.mem_map.mp hca
    exact hfil g0 hg0 (decide_eq_true hgc)

theorem dict_update_buckets (a b : List (String × List Feat))
    (hba : ∀ g ∈ a, ∀ x ∈ g.2, x.category = g.1)
    (hbb : ∀ g ∈ b, ∀ x ∈ g.2, x.category = g.1) :
    ∀ g ∈ dict_update a b, ∀ x ∈ g.2, x.category = g.1 := by
  intro g hg x hx
  unfold dict_update at hg
  rcases List.mem_append.mp hg with hga | hgb
  · obtain ⟨g0, hg0, rfl⟩ := List.mem_map.mp hga
    rcases hfind : b.find? (fun h => h.1 = g0.1) with _ | h0
    · rw [hfind] at hx ⊢
      exact hba g0 hg0 x hx
    · rw [hfind] at hx ⊢
      simp only at hx ⊢
      have hh0 : h0 ∈ b := List.mem_of_find?_eq_some hfind
      have hpk := List.find?_some hfind
      have hkey : h0.1 = g0.1 := of_decide_eq_true hpk
      rw [hbb h0 hh0 x hx, hkey]
  · exact hbb g ((List.mem_filter.mp hgb).1) x hx

theorem find?_of_nodup_keys :
    ∀ (gs : List (String × List Feat)) (g : String × List Feat),
      (gs.map Prod.fst).Nodup → g ∈ gs →
      gs.find? (fun h => h.1 = g.1) = some g := by
  intro gs
  induction gs with
  | nil => intro g _ hg; simp at hg
  | cons h0 t ih =>
    intro g hnd hg
    rcases List.mem_cons.mp hg with rfl | hgt
    · rw [List.find?_cons_of_pos _ (by simp)]
    · have hne : h0.1 ≠ g.1 := by
        intro heq
        have : g.1 ∈ t.map Prod.fst := List.mem_map.mpr ⟨g, hgt, rfl⟩
        rw [List.map_cons, List.nodup_cons] at hnd
        exact hnd.1 (heq ▸ this)
      rw [List.find?_cons_of_neg _ (by simp [hne])]
      exact ih g (by rw [List.map_cons, List.nodup_cons] at hnd; exact hnd.2) hgt

/-- Claim C5: for every category present in the manipulation space,
`Manipulator.model_probing` calls `disable_category` on it if and only if
the classifier score of the probe artifact built for that category equals
the pre-attack baseline score exactly; moreover that probe set contains
only candidates of the category. -/
theorem c5_probe_disables_iff (score_of : Manipulations → ℚ) (init_score : ℚ)
    (sp : MSpace) (cat : String) (hcat : cat ∈ space_categories sp) :
    (cat ∈ model_probing_calls score_of init_score sp
      ↔ score_of (probe_manips sp cat) = init_score)
    ∧ ((probe_manips sp cat).inject.all (fun f => f.category = cat)
        && (probe_manips sp cat).obfuscate.all (fun f => f.category = cat))
      = true := by
  have hinj_eq : sp.get_injections_by_categories
      = sp.inject.foldl add_to_groups [] := rfl
  have hobf_eq : sp.get_obfuscations_by_categories
      = sp.obfuscate.foldl add_to_groups [] := rfl
  have hinjk : (sp.get_injections_by_categories.map Prod.fst).Nodup := by
    rw [hinj_eq]; exact group_keys_nodup sp.inject [] (by simp)
  have hobfk : (sp.get_obfuscations_by_categories.map Prod.fst).Nodup := by
    rw [hobf_eq]; exact group_keys_nodup sp.obfuscate [] (by simp)
  have hmk : ((dict_update sp.get_injections_by_categories
      sp.get_obfuscations_by_categories).map Prod.fst).Nodup :=
    dict_update_keys_nodup _ _ hinjk hobfk
  have hcatm : cat ∈ (dict_update sp.get_injections_by_categories
      sp.get_obfuscations_by_categories).map Prod.fst := by
    rw [dict_update_keys_mem]
    unfold space_categories at hcat
    obtain ⟨f, hf, rfl⟩ := List.mem_map.mp hcat
    rcases List.mem_append.mp hf with hfi | hfo
    · exact Or.inl (by
        rw [hinj_eq]
        exact (group_keys_mem f.category sp.inject []).mpr
          (Or.inr ⟨f, hfi, rfl⟩))
    · exact Or.inr (by
        rw [hobf_eq]
        exact (group_keys_mem f.category sp.obfuscate []).mpr
          (Or.inr ⟨f, hfo, rfl⟩))
  obtain ⟨g, hgmem, hgkey⟩ : ∃ g ∈ dict_update sp.get_injections_by_categories
      sp.get_obfuscations_by_categories, g.1 = cat := by
    obtain ⟨g, hg, h1⟩ := List.mem_map.mp hcatm
    exact ⟨g, hg, h1⟩
  have hfind : (dict_update sp.get_injections_by_categories
        sp.get_obfuscations_by_categories).find? (fun h => h.1 = cat)
      = some g := by
    have h1 := find?_of_nodup_keys _ g hmk hgmem
    rw [hgkey] at h1
    exact h1
  have hpm : probe_manips sp cat
      = probe_manips_of sp.get_injections_by_categories g := by
    simp only [probe_manips, hfind]
  have huniq : ∀ g' ∈ dict_update sp.get_injections_by_categories
      sp.get_obfuscations_by_categories, g'.1 = cat → g' = g := by
    intro g' hg' hk
    have h1 := find?_of_nodup_keys _ g' hmk hg'
    rw [hk] at h1
    exact Option.some.inj (h1.symm.trans hfind)
  have hcalls : cat ∈ model_probing_calls score_of init_score sp
      ↔ ∃ g' ∈ dict_update sp.get_injections_by_categories
          sp.get_obfuscations_by_categories,
          g'.1 = cat
          ∧ score_of (probe_manips_of sp.get_injections_by_categories g')
            = init_score := by
    simp only [model_probing_calls, List.mem_map, List.mem_filter,
      decide_eq_true_eq]
    constructor
    · rintro ⟨g', ⟨hg', hsc⟩, rfl⟩
      exact ⟨g', hg', rfl, hsc⟩
    · rintro ⟨g', hg', hkey, hsc⟩
      exact ⟨g', ⟨hg', hsc⟩, hkey⟩
  constructor
  · rw [hcalls, hpm]
    constructor
    · rintro ⟨g', hg', hk, hsc⟩
      rwa [huniq g' hg' hk] at hsc
    · intro hsc
      exact ⟨g, hgmem, hgkey, hsc⟩
  · rw [hpm]
    have hbuckets : ∀ x ∈ g.2, x.category = g.1 :=
      dict_update_buckets _ _
        (by rw [hinj_eq]; exact group_buckets sp.inject [] (by simp))
        (by rw [hobf_eq]; exact group_buckets sp.obfuscate [] (by simp))
        g hgmem
    have hallg : g.2.all (fun f => f.category = cat) = true := by
      refine List.all_eq_true.mpr ?_
      intro x hx
      exact decide_eq_true (by rw [hbuckets x hx, hgkey])
    unfold probe_manips_of
    by_cases hany : sp.get_injections_by_categories.any
        (fun h => h.1 = g.1) = true
    · rw [if_pos hany]
      simp only [List.all_nil, Bool.and_true]
      exact hallg
    · rw [if_neg hany]
      simp only [List.all_nil, Bool.true_and]
      exact hallg

/-- Witness for `c5_probe_disables_iff`: a space with one `urls` injection
and one `activities` obfuscation, a classifier returning the baseline
score on every probe, and the category `urls`. -/
theorem c5_probe_disables_iff_witness :
    (("urls" : String) ∈ model_probing_calls (fun _ => 9 / 10) (9 / 10)
        ⟨[⟨"urls", "u"⟩], [⟨"activities", "A"⟩], ∅⟩
      ↔ (fun _ => (9 : ℚ) / 10)
          (probe_manips ⟨[⟨"urls", "u"⟩], [⟨"activities", "A"⟩], ∅⟩ "urls")
        = 9 / 10)
    ∧ ((probe_manips ⟨[⟨"urls", "u"⟩], [⟨"activities", "A"⟩], ∅⟩
          "urls").inject.all (fun f => f.category = "urls")
        && (probe_manips ⟨[⟨"urls", "u"⟩], [⟨"activities", "A"⟩], ∅⟩
          "urls").obfuscate.all (fun f => f.category = "urls")) = true :=
  c5_probe_disables_iff (fun _ => 9 / 10) (9 / 10)
    ⟨[⟨"urls", "u"⟩], [⟨"activities", "A"⟩], ∅⟩ "urls" (by decide)
